import Mathlib

/-!
# TalkSmith multi-GPU orchestrator: verification of the workload subsystem

Shallow embedding of the batch-orchestration subsystem of TalkSmith:

* `src/pipeline/multigpu/resource_allocator.py` — `ResourceAllocator.distribute_workload`,
  `ResourceAllocator.create_task_queue`;
* `src/launcher_multigpu.py` — `WorkloadBalancer.balance_by_size`,
  `ProgressTracker.get_summary` (RTF / speedup formulas);
* `src/pipeline/multigpu/load_balancer.py` — `LoadBalancer` state, `monitor_progress`,
  `_process_result` and its handlers, `get_overall_rtf`, `get_speedup`, `get_exit_code`;
* `src/pipeline/logger.py` — `BatchLogSummary` counters and `get_exit_code`;
* `src/pipeline/multigpu/launcher_orchestrator.py` — the task-channel wiring of
  `LauncherOrchestrator.run` (one shared queue handed to every worker).

Files are modelled by an identifier plus a byte size (`MFile`); wall-clock
quantities (audio duration, processing time) are modelled as rationals;
Python dicts keyed by GPU id are modelled as association lists where a
failing lookup (`KeyError`) is an `Option.none` result.
-/

namespace TalkSmith

/-- A file on disk: an identity (standing for the path) and a byte size
(what `Path.stat().st_size` returns, `0` on `OSError` per
`ResourceAllocator._get_file_size`, hence a natural number). -/
structure MFile where
  fid : Nat
  size : Nat
deriving DecidableEq, Repr

/-- The comparison used by both sorts in the source:
`sort(key=lambda f: size(f), reverse=True)` — `a` before `b` iff
`b.size ≤ a.size`.  Python sorts are stable; `List.insertionSort` with this
relation places an element after earlier equal-size elements, matching
Python stable descending order. -/
def sizeGE (a b : MFile) : Prop := b.size ≤ a.size

instance : DecidableRel sizeGE := fun a b => Nat.decLe b.size a.size

instance : IsTotal MFile sizeGE := ⟨fun a b => Nat.le_total b.size a.size⟩

instance : IsTrans MFile sizeGE := ⟨fun _ _ _ h1 h2 => Nat.le_trans h2 h1⟩

/-- Embedding of `files_with_size.sort(key=lambda x: x[1], reverse=True)` from
`ResourceAllocator.distribute_workload`, identically
`sorted(files, key=lambda f: f.stat().st_size, reverse=True)` from
`WorkloadBalancer.balance_by_size`: stable sort by byte size, largest first. -/
def sortBySizeDesc (files : List MFile) : List MFile :=
  files.insertionSort sizeGE

/-- One iteration of the loop
`for i, file_path in enumerate(sorted_files): gpu_workloads[i % num_gpus].append(file_path)`
in `ResourceAllocator.distribute_workload`. -/
def rrStep (k : Nat) (ws : List (List MFile)) (p : Nat × MFile) : List (List MFile) :=
  ws.set (p.1 % k) ((ws.getD (p.1 % k) []) ++ [p.2])

/-- Embedding of `ResourceAllocator.distribute_workload(files, num_gpus)`
(`src/pipeline/multigpu/resource_allocator.py` lines 42–71): if `files` is
empty return `num_gpus` empty lists; otherwise sort by size descending and
append file `i` of the sorted order to workload `i % num_gpus`. -/
def distribute_workload (files : List MFile) (num_gpus : Nat) : List (List MFile) :=
  if files = [] then List.replicate num_gpus []
  else (sortBySizeDesc files).enum.foldl (rrStep num_gpus) (List.replicate num_gpus [])

/-- Cons each element of `as` onto the head of the corresponding list of `ws`
(reference combinator for the round-robin split; `as` is one round of
assignments, one file per device). -/
def consHeads : List MFile → List (List MFile) → List (List MFile)
  | [], ws => ws
  | _ :: _, [] => []
  | a :: as, w :: ws => (a :: w) :: consHeads as ws

/-- Round-robin dealing, fuel-indexed (the fuel only forces termination;
`rrSplit` supplies enough for it never to run out). -/
def rrSplitGo : Nat → List MFile → Nat → List (List MFile)
  | _, [], k => List.replicate k []
  | 0, _ :: _, k => List.replicate k []
  | fuel + 1, a :: as, k =>
    if k = 0 then []
    else consHeads ((a :: as).take k) (rrSplitGo fuel ((a :: as).drop k) k)

/-- Reference form of the round-robin split: deal the list out in rounds of
`k`, device `j` receiving the `j`-th element of every round.  Claim theorems
relate `distribute_workload` to this definition. -/
def rrSplit (l : List MFile) (k : Nat) : List (List MFile) :=
  rrSplitGo l.length l k

/-- Embedding of `GPUWorkload` from `src/launcher_multigpu.py`: per-GPU file list with a
running byte total (`add_file` appends and adds `stat().st_size`). -/
structure GPUWorkload where
  gpu_id : Nat
  files : List MFile
  total_size : Nat
deriving DecidableEq, Repr

/-- Embedding of `GPUWorkload.add_file`. -/
def addFile (w : GPUWorkload) (f : MFile) : GPUWorkload :=
  { w with files := w.files ++ [f], total_size := w.total_size + f.size }

/-- Python `min(workloads, key=lambda w: w.total_size)` picks the first workload
with minimal `total_size`; this computes that minimum. -/
def minTotal : List GPUWorkload → Nat
  | [] => 0
  | [w] => w.total_size
  | w :: ws => Nat.min w.total_size (minTotal ws)

/-- Index of the first workload with minimal `total_size` (which list element
Python `min` returns). -/
def minIdx : List GPUWorkload → Nat
  | [] => 0
  | [_] => 0
  | w :: ws => if minTotal ws < w.total_size then minIdx ws + 1 else 0

/-- One iteration of the loop in `WorkloadBalancer.balance_by_size`:
`min_workload = min(workloads, key=lambda w: w.total_size); min_workload.add_file(file_path)`
(mutating the chosen list entry in place). -/
def greedyStep (ws : List GPUWorkload) (f : MFile) : List GPUWorkload :=
  ws.set (minIdx ws) (addFile (ws.getD (minIdx ws) ⟨0, [], 0⟩) f)

/-- Embedding of `WorkloadBalancer.balance_by_size(files, num_gpus)`
(`src/launcher_multigpu.py` lines 112–148): sort by size descending, start
from `num_gpus` empty workloads, and assign each file to the workload with
the smallest current `total_size` (first one on ties). -/
def balance_by_size (files : List MFile) (num_gpus : Nat) : List GPUWorkload :=
  (sortBySizeDesc files).foldl greedyStep
    ((List.range num_gpus).map (fun i => ⟨i, [], 0⟩))

/-- Sum of the byte sizes of a list of files (a cumulative device byte total). -/
def sumSizes (l : List MFile) : Nat := (l.map MFile.size).sum

/-- The per-device cumulative byte totals of a partition. -/
def loadsOf (part : List (List MFile)) : List Nat := part.map sumSizes

/-- Size of the largest single input file (`0` for an empty batch). -/
def largestSize (files : List MFile) : Nat := (files.map MFile.size).foldr Nat.max 0

/-- Modelled from the spec: index of the first device currently holding the
smallest cumulative byte total, the total recomputed as the sum of the
assigned file sizes, exactly as §4.2 words it. -/
def specArgmin (part : List (List MFile)) : Nat :=
  minIdx (part.map (fun l => ⟨0, l, sumSizes l⟩))

/-- Modelled from the spec: one step of the greedy size-balance partition of
§4.2 — assign the next-largest file to whichever device currently holds the
smallest cumulative byte total (ties broken by lowest device index). -/
def specGreedyStep (part : List (List MFile)) (f : MFile) : List (List MFile) :=
  part.set (specArgmin part) ((part.getD (specArgmin part) []) ++ [f])

/-- Modelled from the spec (§4.2 `partition`): greedy size-balance over the
descending-size order. -/
def greedyPartition (sorted : List MFile) (k : Nat) : List (List MFile) :=
  sorted.foldl specGreedyStep (List.replicate k [])

/-- A task-channel message: either a work item
`(str(file_path), i + 1, len(files))` or the sentinel `None`
(`ResourceAllocator.create_task_queue`). -/
inductive TaskMsg where
  | item (file : MFile) (idx : Nat) (total : Nat)
  | sentinel
deriving DecidableEq, Repr

/-- Embedding of `ResourceAllocator.create_task_queue(files, num_workers)`
(`src/pipeline/multigpu/resource_allocator.py` lines 73–96), FIFO contents of
the returned queue: one `(file, i + 1, len(files))` item per file in order,
then `num_workers` sentinels.  (`MultiGPUOrchestrator._populate_task_queue`
enqueues the same sequence with one sentinel per GPU id.) -/
def create_task_queue (files : List MFile) (num_workers : Nat) : List TaskMsg :=
  (files.enum.map (fun p => TaskMsg.item p.2 (p.1 + 1) files.length))
    ++ List.replicate num_workers TaskMsg.sentinel

/-- A result-channel message, the tagged union produced by
`worker_process` in `src/pipeline/multigpu/process_spawner.py`:
`{"type": "success", ...}`, `{"type": "failure", ...}` or
`{"type": "error", ...}` (worker died before/outside processing).  Payload
fields not read by `LoadBalancer._process_result` (`rtf`, `output_dir`) are
omitted; `file` and `error` strings are modelled by identifiers. -/
inductive ResultMsg where
  | success (gpu_id : Nat) (file : Nat) (duration : ℚ) (processing_time : ℚ)
  | failure (gpu_id : Nat) (file : Nat) (error : Nat)
  | workerErr (gpu_id : Nat) (error : Nat)
deriving DecidableEq, Repr

/-- Does a message count toward `completed_count` (a success or a failure,
not a worker error)? -/
def ResultMsg.counts : ResultMsg → Bool
  | .success _ _ _ _ => true
  | .failure _ _ _ => true
  | .workerErr _ _ => false

/-- The GPU id carried by a message. -/
def ResultMsg.gpu : ResultMsg → Nat
  | .success g _ _ _ => g
  | .failure g _ _ => g
  | .workerErr g _ => g

/-- Is the message a Success? -/
def ResultMsg.isSuccess : ResultMsg → Bool
  | .success _ _ _ _ => true
  | _ => false

/-- Is the message a Failure? -/
def ResultMsg.isFailure : ResultMsg → Bool
  | .failure _ _ _ => true
  | _ => false

/-- Number of messages of a stream that count toward `completed_count`. -/
def countSF (msgs : List ResultMsg) : Nat := msgs.countP ResultMsg.counts

/-- The per-GPU entry of `LoadBalancer.gpu_stats`:
`{"processed": 0, "time": 0.0, "failures": 0}`. -/
structure GpuStat where
  processed : Nat
  time : ℚ
  failures : Nat
deriving DecidableEq, Repr

/-- Python dict lookup on an association list (first binding wins). -/
def lookupA (g : Nat) : List (Nat × GpuStat) → Option GpuStat
  | [] => none
  | (k, v) :: rest => if k = g then some v else lookupA g rest

/-- Python dict update `d[g] = f(d[g])`: `none` models the `KeyError` raised
when `g` is not a key. -/
def updateA (g : Nat) (f : GpuStat → GpuStat) :
    List (Nat × GpuStat) → Option (List (Nat × GpuStat))
  | [] => none
  | (k, v) :: rest =>
    if k = g then some ((k, f v) :: rest)
    else (updateA g f rest).map (fun r => (k, v) :: r)

/-- The mutable state of `LoadBalancer` (`src/pipeline/multigpu/load_balancer.py`
lines 26–51) merged with its embedded `BatchLogSummary`
(`src/pipeline/logger.py`): `summary_total`, `successful`, `failed`,
`batch_errors` are the summary's `total`, `successful`, `failed`, `errors`. -/
structure LBState where
  gpu_ids : List Nat
  completed_count : Nat
  total_duration : ℚ
  total_processing_time : ℚ
  gpu_stats : List (Nat × GpuStat)
  summary_total : Nat
  successful : Nat
  failed : Nat
  batch_errors : List (Nat × Nat)
  results : List ResultMsg
  errors : List ResultMsg
deriving DecidableEq, Repr

/-- Embedding of `LoadBalancer.__init__(gpu_ids)`: zeroed counters and one zero
`gpu_stats` entry per GPU id. -/
def initLB (gpu_ids : List Nat) : LBState :=
  { gpu_ids := gpu_ids
    completed_count := 0
    total_duration := 0
    total_processing_time := 0
    gpu_stats := gpu_ids.map (fun g => (g, ⟨0, 0, 0⟩))
    summary_total := 0
    successful := 0
    failed := 0
    batch_errors := []
    results := []
    errors := [] }

/-- Embedding of `LoadBalancer._handle_success`: bump `completed_count`, record the
success in the batch summary, add to the cumulative duration/processing
time, then update the per-GPU dict entry — the dict access raises
`KeyError` (`none`) when `gpu_id` is not a key. -/
def handleSuccess (st : LBState) (g _file : Nat) (duration processing_time : ℚ) :
    Option LBState :=
  let st1 := { st with
    completed_count := st.completed_count + 1
    summary_total := st.summary_total + 1
    successful := st.successful + 1
    total_duration := st.total_duration + duration
    total_processing_time := st.total_processing_time + processing_time }
  (updateA g (fun s => { s with processed := s.processed + 1, time := s.time + processing_time })
      st1.gpu_stats).map
    (fun gs => { st1 with gpu_stats := gs })

/-- Embedding of `LoadBalancer._handle_failure`: bump `completed_count`, record the
failure (summary `failed` counter and error list), bump the per-GPU
`failures` (KeyError when absent), append to `errors`. -/
def handleFailure (st : LBState) (g file err : Nat) (m : ResultMsg) : Option LBState :=
  let st1 := { st with
    completed_count := st.completed_count + 1
    summary_total := st.summary_total + 1
    failed := st.failed + 1
    batch_errors := st.batch_errors ++ [(file, err)] }
  (updateA g (fun s => { s with failures := s.failures + 1 }) st1.gpu_stats).map
    (fun gs => { st1 with gpu_stats := gs, errors := st1.errors ++ [m] })

/-- Embedding of `LoadBalancer._handle_error`: log (no dict access) and append to
`errors`; never raises. -/
def handleError (st : LBState) (m : ResultMsg) : LBState :=
  { st with errors := st.errors ++ [m] }

/-- Embedding of `LoadBalancer._process_result` (lines 81–132):
dispatch on `result["type"]`, then append the raw result to `results`.
`none` models a `KeyError` escaping (in which case the append never runs). -/
def processResult (st : LBState) (m : ResultMsg) : Option LBState :=
  let handled : Option LBState :=
    match m with
    | .success g f d p => handleSuccess st g f d p
    | .failure g f e => handleFailure st g f e m
    | .workerErr _ _ => some (handleError st m)
  handled.map (fun st2 => { st2 with results := st2.results ++ [m] })

/-- Outcome of draining a given stream of result messages. -/
inductive DrainOutcome where
  /-- The loop guard `completed_count < total_files` became false and
  `monitor_progress` returned. -/
  | completed (st : LBState)
  /-- A `KeyError` escaped from `_process_result`. -/
  | keyErr
  /-- Every message of the stream was consumed with
  `completed_count < total_files` still true: the real loop keeps polling an
  empty queue forever. -/
  | starves (st : LBState)
deriving DecidableEq, Repr

/-- Embedding of `LoadBalancer.monitor_progress(result_queue, total_files)` over
the list of messages the queue will ever deliver: the `while` loop checks
`completed_count < total_files`, gets the next result and processes it;
`queue.Empty` timeouts only `continue`, so an exhausted stream leaves the
loop running (`DrainOutcome.starves`). -/
def monitor_progress (st : LBState) (total_files : Nat) :
    List ResultMsg → DrainOutcome
  | [] =>
    if total_files ≤ st.completed_count then .completed st else .starves st
  | m :: rest =>
    if total_files ≤ st.completed_count then .completed st
    else
      match processResult st m with
      | none => .keyErr
      | some st2 => monitor_progress st2 total_files rest

/-- The same `while` loop as a step-indexed poll sequence: `polls i` is what
the `i`-th `result_queue.get(timeout=timeout)` yields (`none` = `Empty`).
`fuel` bounds the number of observed loop iterations; the result is `none`
while the loop is still running after `fuel` iterations (including the case
of an escaped `KeyError`, which also never returns normally). -/
def monitorFuel (total_files : Nat) (polls : Nat → Option ResultMsg) :
    Nat → Nat → LBState → Option LBState
  | 0, _, _ => none
  | fuel + 1, i, st =>
    if total_files ≤ st.completed_count then some st
    else
      match polls i with
      | none => monitorFuel total_files polls fuel (i + 1) st
      | some m =>
        match processResult st m with
        | none => none
        | some st2 => monitorFuel total_files polls fuel (i + 1) st2

/-- Embedding of `LoadBalancer.get_overall_rtf`: `0.0` if `total_duration == 0`, else
`total_processing_time / total_duration`. -/
def get_overall_rtf (st : LBState) : ℚ :=
  if st.total_duration = 0 then 0 else st.total_processing_time / st.total_duration

/-- Embedding of `LoadBalancer.get_speedup`: `0.0` if `total_processing_time == 0`, else
`total_duration / total_processing_time`. -/
def get_speedup (st : LBState) : ℚ :=
  if st.total_processing_time = 0 then 0 else st.total_duration / st.total_processing_time

/-- Embedding of `BatchLogSummary.get_exit_code` (`src/pipeline/logger.py` lines 306–313),
which `LoadBalancer.get_exit_code` returns verbatim:
`1 if self.failed > 0 else 0`. -/
def get_exit_code (st : LBState) : Nat :=
  if 0 < st.failed then 1 else 0

/-- Embedding of the `ProgressTracker.get_summary` overall RTF
(`src/launcher_multigpu.py` lines 239–248):
`total_processing_time / total_duration if total_duration > 0 else 0`. -/
def pt_overall_rtf (total_processing_time total_duration : ℚ) : ℚ :=
  if 0 < total_duration then total_processing_time / total_duration else 0

/-- Embedding of the `ProgressTracker.get_summary` speedup:
`total_duration / total_processing_time if total_processing_time > 0 else 0`. -/
def pt_speedup (total_processing_time total_duration : ℚ) : ℚ :=
  if 0 < total_processing_time then total_duration / total_processing_time else 0

/-- The task channel each spawned worker reads, per
`ProcessSpawner.spawn_workers` (`src/pipeline/multigpu/process_spawner.py`
lines 168–205) as invoked by `LauncherOrchestrator.run`
(`src/pipeline/multigpu/launcher_orchestrator.py` lines 93–108): every GPU's
worker is passed the *same* `task_queue` object, the one filled by
`create_task_queue(files, len(gpus))`. -/
def spawnWorkerQueues (gpus : List Nat) (files : List MFile) : List (List TaskMsg) :=
  gpus.map (fun _ => create_task_queue files gpus.length)

/-- An interleaving of the workers' blocking `task_queue.get()` calls on the
shared queue: entry `t` of the schedule is the worker (device position) that
performs the `t`-th successful `get`.  Each `get` removes the head of the
remaining queue and delivers it to that worker. -/
def deliver : List TaskMsg → List Nat → List (Nat × TaskMsg)
  | _, [] => []
  | [], _ => []
  | m :: q, w :: sched => (w, m) :: deliver q sched

/-- The sequence of task messages worker `w` receives under a schedule. -/
def consumedBy (w : Nat) (q : List TaskMsg) (sched : List Nat) : List TaskMsg :=
  (deliver q sched).filterMap (fun p => if p.1 = w then some p.2 else none)

/-- Replay of `deliver` tracking which workers have already received their
sentinel (and so, per the `if task is None: break` in `worker_process`, can
never perform another `get`): `true` iff the schedule never hands a message
to a stopped worker. -/
def schedValidGo : List TaskMsg → List Nat → List Nat → Bool
  | _, [], _ => true
  | [], _, _ => true
  | m :: q, w :: sched, stopped =>
    if w ∈ stopped then false
    else
      match m with
      | .sentinel => schedValidGo q sched (w :: stopped)
      | .item _ _ _ => schedValidGo q sched stopped

/-- A schedule is consistent with the worker loop of `worker_process`
(break on the first sentinel) iff no worker is scheduled again after it has
received a sentinel. -/
def schedValid (q : List TaskMsg) (sched : List Nat) : Bool :=
  schedValidGo q sched []

/-- Scenario input from the spec (§8): five files sized [10,1,1,1,1] MB. -/
def f10 : MFile := ⟨0, 10485760⟩
def f1a : MFile := ⟨1, 1048576⟩
def f1b : MFile := ⟨2, 1048576⟩
def f1c : MFile := ⟨3, 1048576⟩
def f1d : MFile := ⟨4, 1048576⟩
def scenarioFiles : List MFile := [f10, f1a, f1b, f1c, f1d]

/-- Append the i-th element of `as` to the i-th list of `ws` (one round of
the round-robin loop as it acts on the accumulated state). -/
def zipOneEach : List MFile → List (List MFile) → List (List MFile)
  | [], ws => ws
  | _ :: _, [] => []
  | a :: as, w :: ws => (w ++ [a]) :: zipOneEach as ws

/-- Pointwise append of two lists of lists (same length in all uses). -/
def zipApp : List (List MFile) → List (List MFile) → List (List MFile)
  | [], vs => vs
  | ws, [] => ws
  | w :: ws, v :: vs => (w ++ v) :: zipApp ws vs

/-- Pointwise add of a (shorter) list of sizes onto a list of loads. -/
def addTo : List Nat → List Nat → List Nat
  | [], ws => ws
  | _ :: _, [] => []
  | s :: ss, w :: ws => (s + w) :: addTo ss ws

/-! ### Round-robin: `distribute_workload` agrees with the chunked split -/

lemma rrSplit_nil (k : Nat) : rrSplit [] k = List.replicate k [] := rfl

lemma rrSplitGo_fuel_irrel (k : Nat) :
    ∀ fuel₁ fuel₂ (l : List MFile), l.length ≤ fuel₁ → l.length ≤ fuel₂ →
      rrSplitGo fuel₁ l k = rrSplitGo fuel₂ l k := by
  intro fuel₁
  induction fuel₁ with
  | zero =>
    intro fuel₂ l h1 _
    have hl : l = [] := List.eq_nil_of_length_eq_zero (Nat.le_zero.mp h1)
    subst hl
    cases fuel₂ <;> rfl
  | succ fuel ih =>
    intro fuel₂ l h1 h2
    cases l with
    | nil => cases fuel₂ <;> rfl
    | cons a as =>
      cases fuel₂ with
      | zero => simp at h2
      | succ fuel₂ =>
        simp only [rrSplitGo]
        by_cases hk : k = 0
        · simp [hk]
        · rw [if_neg hk, if_neg hk]
          congr 1
          apply ih
          · simp only [List.length_drop, List.length_cons] at *
            omega
          · simp only [List.length_drop, List.length_cons] at *
            omega

lemma rrSplit_eq_cons (l : List MFile) (k : Nat) (hl : l ≠ []) (hk : 0 < k) :
    rrSplit l k = consHeads (l.take k) (rrSplit (l.drop k) k) := by
  cases l with
  | nil => exact absurd rfl hl
  | cons a as =>
    show rrSplitGo (a :: as).length (a :: as) k = _
    simp only [List.length_cons, rrSplitGo]
    rw [if_neg (Nat.pos_iff_ne_zero.mp hk)]
    congr 1
    apply rrSplitGo_fuel_irrel
    · simp only [List.length_drop, List.length_cons]
      omega
    · exact le_rfl

lemma consHeads_length : ∀ (as : List MFile) (ws : List (List MFile)),
    as.length ≤ ws.length → (consHeads as ws).length = ws.length := by
  intro as
  induction as with
  | nil => intro ws _; rfl
  | cons a as ih =>
    intro ws h
    cases ws with
    | nil => simp at h
    | cons w ws =>
      simp only [consHeads, List.length_cons]
      rw [ih ws (by simp at h; omega)]

lemma rrSplit_length (k : Nat) (hk : 0 < k) :
    ∀ n (l : List MFile), l.length ≤ n → (rrSplit l k).length = k := by
  intro n
  induction n with
  | zero =>
    intro l h
    have hl : l = [] := List.eq_nil_of_length_eq_zero (Nat.le_zero.mp h)
    subst hl
    simp [rrSplit_nil]
  | succ n ih =>
    intro l h
    rcases eq_or_ne l [] with rfl | hl
    · simp [rrSplit_nil]
    · rw [rrSplit_eq_cons l k hl hk]
      have hd : (rrSplit (l.drop k) k).length = k := by
        apply ih
        have hpos : 0 < l.length := List.length_pos.mpr hl
        simp only [List.length_drop]
        omega
      rw [consHeads_length _ _ (by rw [hd]; simp [List.length_take])]
      exact hd

lemma getD_at_mid : ∀ (ws₁ : List (List MFile)) (w : List MFile) (ws₂ : List (List MFile)),
    (ws₁ ++ w :: ws₂).getD ws₁.length [] = w := by
  intro ws₁
  induction ws₁ with
  | nil => intro w ws₂; rfl
  | cons x ws₁ ih => intro w ws₂; simpa using ih w ws₂

lemma set_at_mid : ∀ (ws₁ : List (List MFile)) (w : List MFile) (ws₂ : List (List MFile))
    (v : List MFile), (ws₁ ++ w :: ws₂).set ws₁.length v = ws₁ ++ v :: ws₂ := by
  intro ws₁
  induction ws₁ with
  | nil => intro w ws₂ v; rfl
  | cons x ws₁ ih => intro w ws₂ v; simp only [List.cons_append, List.length_cons,
      List.set_cons_succ, ih]

lemma foldl_rrStep_chunk (k : Nat) :
    ∀ (as : List MFile) (ws₁ ws₂ : List (List MFile)),
      as.length ≤ ws₂.length → ws₁.length + ws₂.length = k →
      (List.enumFrom ws₁.length as).foldl (rrStep k) (ws₁ ++ ws₂) = ws₁ ++ zipOneEach as ws₂ := by
  intro as
  induction as with
  | nil => intro ws₁ ws₂ _ _; simp [List.enumFrom, zipOneEach]
  | cons a as ih =>
    intro ws₁ ws₂ hlen hk
    cases ws₂ with
    | nil => simp at hlen
    | cons w ws₂ =>
      simp only [List.enumFrom, List.foldl_cons]
      have hlt : ws₁.length < k := by
        simp only [List.length_cons] at hk
        omega
      have hstep : rrStep k (ws₁ ++ w :: ws₂) (ws₁.length, a) = ws₁ ++ (w ++ [a]) :: ws₂ := by
        simp only [rrStep, Nat.mod_eq_of_lt hlt, getD_at_mid, set_at_mid]
      rw [hstep]
      have hre : ws₁ ++ (w ++ [a]) :: ws₂ = (ws₁ ++ [w ++ [a]]) ++ ws₂ := by
        simp
      have hlen2 : (ws₁ ++ [w ++ [a]]).length = ws₁.length + 1 := by simp
      rw [hre, show ws₁.length + 1 = (ws₁ ++ [w ++ [a]]).length from hlen2.symm,
        ih (ws₁ ++ [w ++ [a]]) ws₂ (by simp at hlen ⊢; omega) (by simp at hk ⊢; omega)]
      simp [zipOneEach]

lemma foldl_rrStep_shift (k : Nat) :
    ∀ (l : List MFile) (n : Nat) (ws : List (List MFile)),
      (List.enumFrom (n + k) l).foldl (rrStep k) ws = (List.enumFrom n l).foldl (rrStep k) ws := by
  intro l
  induction l with
  | nil => intro n ws; rfl
  | cons a as ih =>
    intro n ws
    simp only [List.enumFrom, List.foldl_cons]
    have hmod : rrStep k ws (n + k, a) = rrStep k ws (n, a) := by
      simp only [rrStep, Nat.add_mod_right]
    rw [hmod, show n + k + 1 = (n + 1) + k by omega, ih (n + 1)]

lemma zipOneEach_length : ∀ (as : List MFile) (ws : List (List MFile)),
    (zipOneEach as ws).length = ws.length := by
  intro as
  induction as with
  | nil => intro ws; rfl
  | cons a as ih =>
    intro ws
    cases ws with
    | nil => rfl
    | cons w ws => simp only [zipOneEach, List.length_cons, ih]

lemma zipApp_zipOneEach : ∀ (as : List MFile) (ws vs : List (List MFile)),
    as.length ≤ ws.length → ws.length = vs.length →
    zipApp (zipOneEach as ws) vs = zipApp ws (consHeads as vs) := by
  intro as
  induction as with
  | nil => intro ws vs _ _; simp [zipOneEach, consHeads]
  | cons a as ih =>
    intro ws vs h1 h2
    cases ws with
    | nil => simp at h1
    | cons w ws =>
      cases vs with
      | nil => simp at h2
      | cons v vs =>
        simp only [zipOneEach, consHeads, zipApp]
        rw [List.append_assoc, List.singleton_append,
          ih ws vs (by simp at h1; omega) (by simp at h2; omega)]

lemma zipApp_replicate_left : ∀ (vs : List (List MFile)) (k : Nat), vs.length = k →
    zipApp (List.replicate k []) vs = vs := by
  intro vs
  induction vs with
  | nil =>
    intro k h
    subst h
    rfl
  | cons v vs ih =>
    intro k h
    subst h
    simp only [List.length_cons, List.replicate_succ, zipApp, List.nil_append]
    rw [ih vs.length rfl]

lemma zipApp_replicate_right : ∀ (ws : List (List MFile)) (k : Nat), ws.length = k →
    zipApp ws (List.replicate k []) = ws := by
  intro ws
  induction ws with
  | nil =>
    intro k h
    subst h
    rfl
  | cons w ws ih =>
    intro k h
    subst h
    simp only [List.length_cons, List.replicate_succ, zipApp, List.append_nil]
    rw [ih ws.length rfl]

lemma foldl_rrStep_eq_rrSplit (k : Nat) (hk : 0 < k) :
    ∀ n (l : List MFile) (ws : List (List MFile)), l.length ≤ n → ws.length = k →
      (List.enumFrom 0 l).foldl (rrStep k) ws = zipApp ws (rrSplit l k) := by
  intro n
  induction n with
  | zero =>
    intro l ws h hw
    have hl : l = [] := List.eq_nil_of_length_eq_zero (Nat.le_zero.mp h)
    subst hl
    rw [rrSplit_nil, zipApp_replicate_right ws k hw]
    rfl
  | succ n ih =>
    intro l ws h hw
    rcases eq_or_ne l [] with rfl | hl
    · rw [rrSplit_nil, zipApp_replicate_right ws k hw]
      rfl
    · conv_lhs => rw [(List.take_append_drop k l).symm]
      rw [List.enumFrom_append, List.foldl_append]
      have hchunk : (List.enumFrom 0 (l.take k)).foldl (rrStep k) ws
          = zipOneEach (l.take k) ws := by
        have := foldl_rrStep_chunk k (l.take k) [] ws
          (by simp [List.length_take, hw]) (by simpa using hw)
        simpa using this
      rw [hchunk]
      have hout : (List.enumFrom (0 + (l.take k).length) (l.drop k)).foldl (rrStep k)
          (zipOneEach (l.take k) ws)
          = (List.enumFrom 0 (l.drop k)).foldl (rrStep k) (zipOneEach (l.take k) ws) := by
        rcases le_or_lt k l.length with hkl | hkl
        · have htk : (l.take k).length = k := by simp [List.length_take, Nat.min_eq_left hkl]
          rw [htk, Nat.zero_add]
          have hs := foldl_rrStep_shift k (l.drop k) 0 (zipOneEach (l.take k) ws)
          rwa [Nat.zero_add] at hs
        · have hdn : l.drop k = [] := List.drop_eq_nil_of_le (le_of_lt hkl)
          rw [hdn]
          rfl
      rw [hout]
      have hdl : (l.drop k).length ≤ n := by
        have hpos : 0 < l.length := List.length_pos.mpr hl
        simp only [List.length_drop]
        omega
      rw [ih (l.drop k) (zipOneEach (l.take k) ws) hdl (by rw [zipOneEach_length, hw])]
      rw [rrSplit_eq_cons l k hl hk]
      exact zipApp_zipOneEach (l.take k) ws (rrSplit (l.drop k) k)
        (by simp [List.length_take, hw])
        (by rw [hw, rrSplit_length k hk (l.drop k).length (l.drop k) le_rfl])

/-- Lemma: `distribute_workload` is exactly the chunked round-robin deal of the
descending-size order. -/
lemma distribute_workload_eq_rrSplit (files : List MFile) (k : Nat) (hk : 0 < k) :
    distribute_workload files k = rrSplit (sortBySizeDesc files) k := by
  unfold distribute_workload
  rcases eq_or_ne files [] with rfl | hne
  · rw [if_pos rfl]
    rfl
  · rw [if_neg hne]
    have henum : (sortBySizeDesc files).enum = List.enumFrom 0 (sortBySizeDesc files) := rfl
    rw [henum, foldl_rrStep_eq_rrSplit k hk (sortBySizeDesc files).length _ _ le_rfl
      (List.length_replicate k []),
      zipApp_replicate_left _ k
        (rrSplit_length k hk (sortBySizeDesc files).length _ le_rfl)]

/-! ### Partition completeness -/

lemma flatten_replicate_nil : ∀ k : Nat, (List.replicate k ([] : List MFile)).flatten = [] := by
  intro k
  induction k with
  | zero => rfl
  | succ k ih => simp [List.replicate_succ, ih]

lemma consHeads_flatten_perm : ∀ (as : List MFile) (ws : List (List MFile)),
    as.length ≤ ws.length → (consHeads as ws).flatten.Perm (as ++ ws.flatten) := by
  intro as
  induction as with
  | nil => intro ws _; simp [consHeads]
  | cons a as ih =>
    intro ws h
    cases ws with
    | nil => simp at h
    | cons w ws =>
      simp only [consHeads, List.flatten_cons, List.cons_append]
      apply List.Perm.cons
      have h1 : (consHeads as ws).flatten.Perm (as ++ ws.flatten) := ih ws (by simp at h; omega)
      have h2 : (w ++ (consHeads as ws).flatten).Perm (w ++ (as ++ ws.flatten)) := h1.append_left w
      have h3 : (w ++ (as ++ ws.flatten)).Perm (as ++ (w ++ ws.flatten)) := by
        rw [← List.append_assoc, ← List.append_assoc]
        exact List.perm_append_comm.append_right ws.flatten
      exact h2.trans h3

lemma rrSplit_flatten_perm (k : Nat) (hk : 0 < k) :
    ∀ n (l : List MFile), l.length ≤ n → (rrSplit l k).flatten.Perm l := by
  intro n
  induction n with
  | zero =>
    intro l h
    have hl : l = [] := List.eq_nil_of_length_eq_zero (Nat.le_zero.mp h)
    subst hl
    rw [rrSplit_nil, flatten_replicate_nil]
  | succ n ih =>
    intro l h
    rcases eq_or_ne l [] with rfl | hl
    · rw [rrSplit_nil, flatten_replicate_nil]
    · rw [rrSplit_eq_cons l k hl hk]
      have hpos : 0 < l.length := List.length_pos.mpr hl
      have hdl : (l.drop k).length ≤ n := by
        simp only [List.length_drop]
        omega
      have hlen : (l.take k).length ≤ (rrSplit (l.drop k) k).length := by
        rw [rrSplit_length k hk (l.drop k).length _ le_rfl]
        simp [List.length_take]
      have h1 := consHeads_flatten_perm _ _ hlen
      have h2 := (ih (l.drop k) hdl).append_left (l.take k)
      have h3 := h1.trans h2
      rwa [List.take_append_drop k l] at h3

lemma sortBySizeDesc_perm (files : List MFile) : (sortBySizeDesc files).Perm files :=
  List.perm_insertionSort sizeGE files

lemma sortBySizeDesc_sorted (files : List MFile) : (sortBySizeDesc files).Sorted sizeGE :=
  List.sorted_insertionSort sizeGE files

lemma distribute_workload_flatten_perm (files : List MFile) (k : Nat) (hk : 0 < k) :
    (distribute_workload files k).flatten.Perm files := by
  rw [distribute_workload_eq_rrSplit files k hk]
  exact (rrSplit_flatten_perm k hk (sortBySizeDesc files).length _ le_rfl).trans
    (sortBySizeDesc_perm files)

lemma countP_pos_of_sum_one : ∀ ns : List Nat, ns.sum = 1 →
    ns.countP (fun n => decide (0 < n)) = 1 := by
  intro ns
  induction ns with
  | nil => intro h; simp at h
  | cons n ns ih =>
    intro h
    simp only [List.sum_cons] at h
    rcases Nat.eq_zero_or_pos n with h0 | hpos
    · subst h0
      rw [List.countP_cons_of_neg _ _ (by simp)]
      exact ih (by omega)
    · have h1 : ns.sum = 0 := by omega
      rw [List.countP_cons_of_pos _ _ (by simpa using hpos)]
      have hz : ns.countP (fun n => decide (0 < n)) = 0 := by
        rw [List.countP_eq_zero]
        intro x hx
        have : x = 0 := by
          have := (List.sum_eq_zero_iff).mp h1 x hx
          exact this
        simp [this]
      omega

/-- Claim C6: For every input file list and every device count >= 1, the
partition produced by `distribute_workload` covers the input exactly: the
per-device sub-list lengths sum to the number of input files, the
concatenation of the sub-lists is a permutation of the input, and (for a
duplicate-free input) every input file appears in exactly one sub-list. -/
theorem C6_partition_complete (files : List MFile) (k : Nat) (hk : 1 ≤ k) :
    ((distribute_workload files k).map List.length).sum = files.length ∧
    (distribute_workload files k).flatten.Perm files ∧
    (files.Nodup → ∀ f, f ∈ files →
      (distribute_workload files k).countP (fun w => decide (f ∈ w)) = 1) := by
  have hperm := distribute_workload_flatten_perm files k hk
  refine ⟨?_, hperm, ?_⟩
  · rw [← List.length_flatten]
    exact hperm.length_eq
  · intro hnd f hf
    have hc : (distribute_workload files k).flatten.count f = 1 := by
      rw [hperm.count_eq]
      exact List.count_eq_one_of_mem hnd hf
    rw [List.count_flatten] at hc
    have hpos := countP_pos_of_sum_one _ hc
    rw [List.countP_map] at hpos
    have hcongr : (distribute_workload files k).countP
          ((fun n => decide (0 < n)) ∘ List.count f)
        = (distribute_workload files k).countP (fun w => decide (f ∈ w)) := by
      apply List.countP_congr
      intro w _
      simp [Function.comp, List.count_pos_iff]
    rw [← hcongr]
    exact hpos

/-- Witness for C6 at the spec scenario input (5 files, 2 devices). -/
theorem C6_partition_complete_witness :
    ((distribute_workload scenarioFiles 2).map List.length).sum = scenarioFiles.length ∧
    (distribute_workload scenarioFiles 2).flatten.Perm scenarioFiles ∧
    (scenarioFiles.Nodup → ∀ f, f ∈ scenarioFiles →
      (distribute_workload scenarioFiles 2).countP (fun w => decide (f ∈ w)) = 1) :=
  C6_partition_complete scenarioFiles 2 (by decide)

/-! ### Task-queue structure -/

/-- Claim C5: For every file list and worker count, the task channel built by
`create_task_queue` holds one WorkItem `(file, 1-based index, total count)`
per input file, in input order, followed by exactly `k` sentinels — every
sentinel sits at a position after every WorkItem. -/
theorem C5_sentinel_correct (files : List MFile) (k : Nat) :
    (create_task_queue files k).length = files.length + k ∧
    (∀ i, (h : i < files.length) →
      (create_task_queue files k)[i]? =
        some (TaskMsg.item (files.get ⟨i, h⟩) (i + 1) files.length)) ∧
    (∀ i, files.length ≤ i → i < files.length + k →
      (create_task_queue files k)[i]? = some TaskMsg.sentinel) ∧
    (create_task_queue files k).count TaskMsg.sentinel = k := by
  unfold create_task_queue
  have hlenitems :
      (files.enum.map (fun p => TaskMsg.item p.2 (p.1 + 1) files.length)).length
        = files.length := by simp
  refine ⟨by simp, ?_, ?_, ?_⟩
  · intro i h
    rw [List.getElem?_append_left (by rw [hlenitems]; exact h)]
    simp only [List.getElem?_map, List.getElem?_enum, List.getElem?_eq_getElem h]
    rfl
  · intro i h1 h2
    rw [List.getElem?_append_right (by rw [hlenitems]; exact h1), hlenitems,
      List.getElem?_replicate, if_pos (by omega)]
  · rw [List.count_append]
    have h0 : (files.enum.map (fun p => TaskMsg.item p.2 (p.1 + 1) files.length)).count
        TaskMsg.sentinel = 0 := by
      rw [List.count_eq_zero]
      intro hmem
      rcases List.mem_map.mp hmem with ⟨p, _, hp⟩
      exact TaskMsg.noConfusion hp
    rw [h0, List.count_replicate_self, Nat.zero_add]

/-- Witness for C5: concrete two-file, two-worker queue. -/
theorem C5_sentinel_correct_witness :
    (create_task_queue [f1a, f1b] 2).length = [f1a, f1b].length + 2 ∧
    (∀ i, (h : i < [f1a, f1b].length) →
      (create_task_queue [f1a, f1b] 2)[i]? =
        some (TaskMsg.item ([f1a, f1b].get ⟨i, h⟩) (i + 1) [f1a, f1b].length)) ∧
    (∀ i, [f1a, f1b].length ≤ i → i < [f1a, f1b].length + 2 →
      (create_task_queue [f1a, f1b] 2)[i]? = some TaskMsg.sentinel) ∧
    (create_task_queue [f1a, f1b] 2).count TaskMsg.sentinel = 2 :=
  C5_sentinel_correct [f1a, f1b] 2

/-! ### Aggregator: dict updates, drain invariants -/

lemma updateA_none_iff (g : Nat) (f : GpuStat → GpuStat) :
    ∀ gs : List (Nat × GpuStat), updateA g f gs = none ↔ g ∉ gs.map Prod.fst := by
  intro gs
  induction gs with
  | nil => simp [updateA]
  | cons p gs ih =>
    obtain ⟨k, v⟩ := p
    simp only [updateA, List.map_cons, List.mem_cons]
    by_cases hk : k = g
    · subst hk
      simp
    · rw [if_neg hk]
      rw [Option.map_eq_none']
      rw [ih]
      constructor
      · intro hnot hor
        rcases hor with h1 | h2
        · exact hk h1.symm
        · exact hnot h2
      · intro hnot h2
        exact hnot (Or.inr h2)

lemma updateA_some_keys (g : Nat) (f : GpuStat → GpuStat) :
    ∀ gs gs2, updateA g f gs = some gs2 → gs2.map Prod.fst = gs.map Prod.fst := by
  intro gs
  induction gs with
  | nil => intro gs2 h; simp [updateA] at h
  | cons p gs ih =>
    obtain ⟨k, v⟩ := p
    intro gs2 h
    simp only [updateA] at h
    by_cases hk : k = g
    · rw [if_pos hk] at h
      obtain rfl := (Option.some_inj.mp h).symm
      simp
    · rw [if_neg hk] at h
      cases hu : updateA g f gs with
      | none =>
        rw [hu] at h
        simp at h
      | some gs3 =>
        rw [hu] at h
        simp only [Option.map_some'] at h
        obtain rfl := (Option.some_inj.mp h).symm
        simp [ih gs3 hu]

lemma processResult_some_facts (st : LBState) (m : ResultMsg) (st2 : LBState)
    (h : processResult st m = some st2) :
    st2.completed_count = st.completed_count + (if m.counts then 1 else 0) ∧
    st2.successful = st.successful + (if m.isSuccess then 1 else 0) ∧
    st2.failed = st.failed + (if m.isFailure then 1 else 0) ∧
    st2.gpu_stats.map Prod.fst = st.gpu_stats.map Prod.fst := by
  cases m with
  | success g f d p =>
    simp only [processResult, handleSuccess, ResultMsg.counts] at h
    cases hu : updateA g
        (fun s => { s with processed := s.processed + 1, time := s.time + p })
        st.gpu_stats with
    | none =>
      rw [hu] at h
      simp at h
    | some gs =>
      rw [hu] at h
      simp only [Option.map_some', Option.some_inj] at h
      obtain rfl := h.symm
      refine ⟨rfl, rfl, rfl, ?_⟩
      exact updateA_some_keys g _ st.gpu_stats gs hu
  | failure g f e =>
    simp only [processResult, handleFailure, ResultMsg.counts] at h
    cases hu : updateA g (fun s => { s with failures := s.failures + 1 }) st.gpu_stats with
    | none =>
      rw [hu] at h
      simp at h
    | some gs =>
      rw [hu] at h
      simp only [Option.map_some', Option.some_inj] at h
      obtain rfl := h.symm
      refine ⟨rfl, rfl, rfl, ?_⟩
      exact updateA_some_keys g _ st.gpu_stats gs hu
  | workerErr g e =>
    simp only [processResult, handleError, ResultMsg.counts] at h
    simp only [Option.map_some', Option.some_inj] at h
    obtain rfl := h.symm
    exact ⟨rfl, rfl, rfl, rfl⟩

lemma processResult_isSome (st : LBState) (m : ResultMsg)
    (h : m.counts = true → m.gpu ∈ st.gpu_stats.map Prod.fst) :
    ∃ st2, processResult st m = some st2 := by
  cases m with
  | success g f d p =>
    have hg : g ∈ st.gpu_stats.map Prod.fst := h rfl
    cases hu : updateA g
        (fun s => { s with processed := s.processed + 1, time := s.time + p })
        st.gpu_stats with
    | none => exact absurd ((updateA_none_iff g _ st.gpu_stats).mp hu) (by simpa using hg)
    | some gs =>
      refine Option.isSome_iff_exists.mp ?_
      simp only [processResult, handleSuccess, hu, Option.map_some', Option.isSome_some]
  | failure g f e =>
    have hg : g ∈ st.gpu_stats.map Prod.fst := h rfl
    cases hu : updateA g (fun s => { s with failures := s.failures + 1 }) st.gpu_stats with
    | none => exact absurd ((updateA_none_iff g _ st.gpu_stats).mp hu) (by simpa using hg)
    | some gs =>
      refine Option.isSome_iff_exists.mp ?_
      simp only [processResult, handleFailure, hu, Option.map_some', Option.isSome_some]
  | workerErr g e => exact ⟨_, rfl⟩

lemma processResult_none_of_missing (st : LBState) (m : ResultMsg)
    (hc : m.counts = true) (hg : m.gpu ∉ st.gpu_stats.map Prod.fst) :
    processResult st m = none := by
  cases m with
  | success g f d p =>
    simp only [processResult, handleSuccess]
    rw [(updateA_none_iff g _ _).mpr (by simpa using hg)]
    rfl
  | failure g f e =>
    simp only [processResult, handleFailure]
    rw [(updateA_none_iff g _ _).mpr (by simpa using hg)]
    rfl
  | workerErr g e => simp [ResultMsg.counts] at hc

lemma initLB_keys (gpus : List Nat) : (initLB gpus).gpu_stats.map Prod.fst = gpus := by
  simp only [initLB, List.map_map]
  have h : (Prod.fst ∘ fun g => (g, (⟨0, 0, 0⟩ : GpuStat))) = (id : Nat → Nat) := by
    funext g
    rfl
  rw [h, List.map_id]

lemma countSF_cons (m : ResultMsg) (rest : List ResultMsg) :
    countSF (m :: rest) = countSF rest + (if m.counts then 1 else 0) := by
  simp [countSF, List.countP_cons]

lemma monitor_invariant (total : Nat) :
    ∀ (msgs : List ResultMsg) (st st2 : LBState),
      st.successful + st.failed = st.completed_count →
      st.completed_count ≤ total →
      monitor_progress st total msgs = .completed st2 →
      st2.successful + st2.failed = total := by
  intro msgs
  induction msgs with
  | nil =>
    intro st st2 hinv hle h
    simp only [monitor_progress] at h
    by_cases hc : total ≤ st.completed_count
    · rw [if_pos hc] at h
      obtain rfl : st = st2 := by
        cases h
        rfl
      omega
    · rw [if_neg hc] at h
      cases h
  | cons m rest ih =>
    intro st st2 hinv hle h
    simp only [monitor_progress] at h
    by_cases hc : total ≤ st.completed_count
    · rw [if_pos hc] at h
      obtain rfl : st = st2 := by
        cases h
        rfl
      omega
    · rw [if_neg hc] at h
      cases hp : processResult st m with
      | none =>
        rw [hp] at h
        cases h
      | some st3 =>
        rw [hp] at h
        obtain ⟨h1, h2, h3, _⟩ := processResult_some_facts st m st3 hp
        refine ih st3 st2 ?_ ?_ h
        · cases m <;>
            simp [ResultMsg.counts, ResultMsg.isSuccess, ResultMsg.isFailure] at h1 h2 h3 <;>
            omega
        · cases m <;> simp [ResultMsg.counts] at h1 <;> omega

lemma monitor_completes (total : Nat) :
    ∀ (msgs : List ResultMsg) (st : LBState),
      (∀ m ∈ msgs, m.counts = true → m.gpu ∈ st.gpu_stats.map Prod.fst) →
      st.completed_count ≤ total →
      total ≤ st.completed_count + countSF msgs →
      ∃ st2, monitor_progress st total msgs = .completed st2 := by
  intro msgs
  induction msgs with
  | nil =>
    intro st _ hle hge
    have hc : total ≤ st.completed_count := by
      simpa [countSF] using hge
    exact ⟨st, by simp [monitor_progress, hc]⟩
  | cons m rest ih =>
    intro st hmem hle hge
    by_cases hc : total ≤ st.completed_count
    · exact ⟨st, by simp [monitor_progress, hc]⟩
    · obtain ⟨st3, hp⟩ := processResult_isSome st m (fun hcnt => hmem m (by simp) hcnt)
      obtain ⟨h1, _, _, hkeys⟩ := processResult_some_facts st m st3 hp
      have hmem3 : ∀ m2 ∈ rest, m2.counts = true → m2.gpu ∈ st3.gpu_stats.map Prod.fst := by
        intro m2 hm2 hcnt
        rw [hkeys]
        exact hmem m2 (by simp [hm2]) hcnt
      have hle3 : st3.completed_count ≤ total := by
        cases m <;> simp [ResultMsg.counts] at h1 <;> omega
      have hge3 : total ≤ st3.completed_count + countSF rest := by
        rw [countSF_cons] at hge
        cases m <;> simp [ResultMsg.counts] at h1 hge <;> omega
      obtain ⟨st2, h2⟩ := ih st3 hmem3 hle3 hge3
      refine ⟨st2, ?_⟩
      simp only [monitor_progress, if_neg hc, hp]
      exact h2

/-- Claim C4: For every synthetic result stream with at least `expectedTotal`
success-or-failure messages (worker errors not counting) whose counting
messages carry known GPU ids, the drain returns and the aggregate satisfies
`successes + failures = expectedTotal`. -/
theorem C4_result_completeness (gpus : List Nat) (total : Nat) (msgs : List ResultMsg)
    (h1 : total ≤ countSF msgs)
    (h2 : ∀ m ∈ msgs, m.counts = true → m.gpu ∈ gpus) :
    ∃ st2, monitor_progress (initLB gpus) total msgs = .completed st2 ∧
      st2.successful + st2.failed = total := by
  obtain ⟨st2, hdone⟩ := monitor_completes total msgs (initLB gpus)
    (by rw [initLB_keys]; exact h2) (by simp [initLB]) (by simp [initLB]; omega)
  exact ⟨st2, hdone, monitor_invariant total msgs (initLB gpus) st2 (by simp [initLB])
    (by simp [initLB]) hdone⟩

/-- Witness for C4: one GPU, two counting messages, expected total 2. -/
theorem C4_result_completeness_witness :
    ∃ st2, monitor_progress (initLB [0]) 2
        [ResultMsg.success 0 7 10 2, ResultMsg.failure 0 8 3] = .completed st2 ∧
      st2.successful + st2.failed = 2 :=
  C4_result_completeness [0] 2 [ResultMsg.success 0 7 10 2, ResultMsg.failure 0 8 3]
    (by decide) (by decide)

/-- Claim C8: For every aggregator state, the exit code is `0` iff the
recorded failure count is `0`, and `1` otherwise (`LoadBalancer.get_exit_code`
delegating to `BatchLogSummary.get_exit_code`). -/
theorem C8_exit_code_law (st : LBState) :
    (get_exit_code st = 0 ↔ st.failed = 0) ∧
    get_exit_code st = (if st.failed = 0 then 0 else 1) := by
  unfold get_exit_code
  by_cases h : 0 < st.failed
  · rw [if_pos h]
    constructor
    · simp
      omega
    · rw [if_neg (by omega)]
  · rw [if_neg h]
    constructor
    · simp
      omega
    · rw [if_pos (by omega)]

/-- Claim C9: RTF and speedup are guarded divisions: RTF is
`total_processing_time / total_duration` except `0` at zero accumulated
duration; speedup is the reciprocal ratio except `0` at zero accumulated
processing time — in `LoadBalancer.get_overall_rtf` / `get_speedup` for all
states, and in `ProgressTracker.get_summary` for all non-negative totals. -/
theorem C9_guarded_ratios (st : LBState) :
    (st.total_duration = 0 → get_overall_rtf st = 0) ∧
    (st.total_duration ≠ 0 →
      get_overall_rtf st = st.total_processing_time / st.total_duration) ∧
    (st.total_processing_time = 0 → get_speedup st = 0) ∧
    (st.total_processing_time ≠ 0 →
      get_speedup st = st.total_duration / st.total_processing_time) ∧
    (∀ tpt dur : ℚ, 0 ≤ dur →
      (dur = 0 → pt_overall_rtf tpt dur = 0) ∧
      (dur ≠ 0 → pt_overall_rtf tpt dur = tpt / dur)) ∧
    (∀ tpt dur : ℚ, 0 ≤ tpt →
      (tpt = 0 → pt_speedup tpt dur = 0) ∧
      (tpt ≠ 0 → pt_speedup tpt dur = dur / tpt)) := by
  refine ⟨fun h => by simp [get_overall_rtf, h], fun h => by simp [get_overall_rtf, h],
    fun h => by simp [get_speedup, h], fun h => by simp [get_speedup, h], ?_, ?_⟩
  · intro tpt dur hnn
    constructor
    · intro h
      simp [pt_overall_rtf, h]
    · intro h
      have hpos : 0 < dur := lt_of_le_of_ne hnn (Ne.symm h)
      simp [pt_overall_rtf, hpos]
  · intro tpt dur hnn
    constructor
    · intro h
      simp [pt_speedup, h]
    · intro h
      have hpos : 0 < tpt := lt_of_le_of_ne hnn (Ne.symm h)
      simp [pt_speedup, hpos]

/-- Witness for C9 at concrete states: the zeroed initial state and a state
with duration 4 and processing time 6. -/
theorem C9_guarded_ratios_witness :
    get_overall_rtf (initLB [0]) = 0 ∧
    get_speedup (initLB [0]) = 0 ∧
    get_overall_rtf { initLB [0] with total_duration := 4, total_processing_time := 6 }
      = 6 / 4 ∧
    pt_overall_rtf 6 4 = 6 / 4 ∧
    pt_overall_rtf 6 0 = 0 ∧
    pt_speedup 6 4 = 4 / 6 ∧
    pt_speedup 0 4 = 0 := by
  refine ⟨(C9_guarded_ratios (initLB [0])).1 rfl,
    (C9_guarded_ratios (initLB [0])).2.2.1 rfl,
    (C9_guarded_ratios { initLB [0] with total_duration := 4, total_processing_time := 6 }).2.1
      (by norm_num), ?_, ?_, ?_, ?_⟩
  · exact ((C9_guarded_ratios (initLB [0])).2.2.2.2.1 6 4 (by norm_num)).2 (by norm_num)
  · exact ((C9_guarded_ratios (initLB [0])).2.2.2.2.1 6 0 (by norm_num)).1 rfl
  · exact ((C9_guarded_ratios (initLB [0])).2.2.2.2.2 6 4 (by norm_num)).2 (by norm_num)
  · exact ((C9_guarded_ratios (initLB [0])).2.2.2.2.2 0 4 (by norm_num)).1 rfl

lemma monitor_no_keyErr (total : Nat) :
    ∀ (msgs : List ResultMsg) (st : LBState),
      (∀ m ∈ msgs, m.counts = true → m.gpu ∈ st.gpu_stats.map Prod.fst) →
      monitor_progress st total msgs ≠ .keyErr := by
  intro msgs
  induction msgs with
  | nil =>
    intro st _
    simp only [monitor_progress]
    by_cases hc : total ≤ st.completed_count
    · rw [if_pos hc]
      simp
    · rw [if_neg hc]
      simp
  | cons m rest ih =>
    intro st hmem
    simp only [monitor_progress]
    by_cases hc : total ≤ st.completed_count
    · rw [if_pos hc]
      simp
    · rw [if_neg hc]
      obtain ⟨st3, hp⟩ := processResult_isSome st m (fun hcnt => hmem m (by simp) hcnt)
      rw [hp]
      obtain ⟨_, _, _, hkeys⟩ := processResult_some_facts st m st3 hp
      exact ih st3 (fun m2 hm2 hcnt => by rw [hkeys]; exact hmem m2 (by simp [hm2]) hcnt)

lemma monitor_completed_bound (total : Nat) :
    ∀ (msgs : List ResultMsg) (st st2 : LBState),
      monitor_progress st total msgs = .completed st2 →
      total ≤ st.completed_count + countSF msgs := by
  intro msgs
  induction msgs with
  | nil =>
    intro st st2 h
    simp only [monitor_progress] at h
    by_cases hc : total ≤ st.completed_count
    · omega
    · rw [if_neg hc] at h
      cases h
  | cons m rest ih =>
    intro st st2 h
    simp only [monitor_progress] at h
    by_cases hc : total ≤ st.completed_count
    · rw [countSF_cons]
      omega
    · rw [if_neg hc] at h
      cases hp : processResult st m with
      | none =>
        rw [hp] at h
        cases h
      | some st3 =>
        rw [hp] at h
        obtain ⟨h1, _, _, _⟩ := processResult_some_facts st m st3 hp
        have hb := ih st3 st2 h
        rw [countSF_cons]
        cases m <;> simp [ResultMsg.counts] at h1 ⊢ <;> omega

lemma monitorFuel_none_of_empty (total : Nat) (polls : Nat → Option ResultMsg)
    (hp : ∀ j, polls j = none) :
    ∀ (fuel i : Nat) (st : LBState), st.completed_count < total →
      monitorFuel total polls fuel i st = none := by
  intro fuel
  induction fuel with
  | zero => intro i st _; rfl
  | succ fuel ih =>
    intro i st hlt
    simp only [monitorFuel, hp i]
    rw [if_neg (by omega)]
    exact ih (i + 1) st hlt

/-- Claim C10: the result processing of the load balancer is total only over the
constructor-time GPU ids: a Success/Failure message with an unknown `gpu_id`
raises `KeyError` in the per-device update, aborting the drain; when every
counting message's `gpu_id` is among the constructor's `gpu_ids`, that error
branch is unreachable. -/
theorem C10_unknown_gpu_keyerror :
    (∀ (st : LBState) (m : ResultMsg), m.counts = true →
      m.gpu ∉ st.gpu_stats.map Prod.fst → processResult st m = none) ∧
    (∀ (st : LBState) (total : Nat) (m : ResultMsg) (rest : List ResultMsg),
      st.completed_count < total → m.counts = true →
      m.gpu ∉ st.gpu_stats.map Prod.fst →
      monitor_progress st total (m :: rest) = .keyErr) ∧
    (∀ (gpus : List Nat) (total : Nat) (msgs : List ResultMsg),
      (∀ m ∈ msgs, m.counts = true → m.gpu ∈ gpus) →
      monitor_progress (initLB gpus) total msgs ≠ .keyErr) := by
  refine ⟨fun st m hc hg => processResult_none_of_missing st m hc hg, ?_, ?_⟩
  · intro st total m rest hlt hc hg
    simp only [monitor_progress, if_neg (by omega : ¬ total ≤ st.completed_count)]
    rw [processResult_none_of_missing st m hc hg]
  · intro gpus total msgs hmem
    exact monitor_no_keyErr total msgs (initLB gpus) (by rw [initLB_keys]; exact hmem)

/-- Witness for C10: GPU 5 is unknown to a balancer built for `[0]`. -/
theorem C10_unknown_gpu_keyerror_witness :
    processResult (initLB [0]) (ResultMsg.success 5 7 10 2) = none ∧
    monitor_progress (initLB [0]) 2 [ResultMsg.success 5 7 10 2] = .keyErr ∧
    monitor_progress (initLB [0]) 1 [ResultMsg.success 0 7 10 2] ≠ .keyErr := by
  obtain ⟨h1, h2, h3⟩ := C10_unknown_gpu_keyerror
  exact ⟨h1 (initLB [0]) (ResultMsg.success 5 7 10 2) rfl (by decide),
    h2 (initLB [0]) 2 (ResultMsg.success 5 7 10 2) [] (by decide) rfl (by decide),
    h3 [0] 1 [ResultMsg.success 0 7 10 2] (by decide)⟩

/-- Claim C3, counterexample: The claim that the drain terminates under a
bounded overall timeout is false: with expected total 1 and a result queue
that never delivers anything, no number of loop iterations makes
`monitor_progress` return. -/
theorem C3_counterexample :
    ¬ ∃ (fuel : Nat) (st : LBState),
      monitorFuel 1 (fun _ => none) fuel 0 (initLB [0]) = some st := by
  rintro ⟨fuel, st, h⟩
  rw [monitorFuel_none_of_empty 1 (fun _ => none) (fun _ => rfl) fuel 0 (initLB [0])
    (by decide)] at h
  cases h

/-- Claim C3, amended: `monitor_progress` has no bounded overall timeout: the
loop returns only once `completed_count` reaches `total_files`, so on a
stream with fewer than `total_files` success/failure messages it never
completes, and under always-empty polling it runs forever (every finite
iteration budget yields no return). -/
theorem C3_amended_no_overall_timeout :
    (∀ (total : Nat) (msgs : List ResultMsg) (st st2 : LBState),
      st.completed_count + countSF msgs < total →
      monitor_progress st total msgs ≠ .completed st2) ∧
    (∀ (total : Nat) (polls : Nat → Option ResultMsg) (fuel i : Nat) (st : LBState),
      (∀ j, polls j = none) → st.completed_count < total →
      monitorFuel total polls fuel i st = none) := by
  constructor
  · intro total msgs st st2 hlt h
    exact absurd (monitor_completed_bound total msgs st st2 h) (by omega)
  · intro total polls fuel i st hp hlt
    exact monitorFuel_none_of_empty total polls hp fuel i st hlt

/-- Witness for the amended C3 at concrete inputs. -/
theorem C3_amended_no_overall_timeout_witness :
    (monitor_progress (initLB [0]) 1 [] ≠ .completed (initLB [0])) ∧
    monitorFuel 1 (fun _ => none) 5 0 (initLB [0]) = none :=
  ⟨C3_amended_no_overall_timeout.1 1 [] (initLB [0]) (initLB [0]) (by decide),
    C3_amended_no_overall_timeout.2 1 (fun _ => none) 5 0 (initLB [0]) (fun _ => rfl)
      (by decide)⟩

/-! ### Shared task queue: delivery under pull schedules -/

lemma deliver_map_snd : ∀ (q : List TaskMsg) (sched : List Nat),
    (deliver q sched).map Prod.snd = q.take sched.length := by
  intro q
  induction q with
  | nil => intro sched; cases sched <;> rfl
  | cons m q ih =>
    intro sched
    cases sched with
    | nil => rfl
    | cons w sched => simp [deliver, ih sched]

lemma deliver_fst_mem : ∀ (q : List TaskMsg) (sched : List Nat) (p : Nat × TaskMsg),
    p ∈ deliver q sched → p.1 ∈ sched := by
  intro q
  induction q with
  | nil =>
    intro sched p hp
    cases sched <;> simp [deliver] at hp
  | cons m q ih =>
    intro sched p hp
    cases sched with
    | nil => simp [deliver] at hp
    | cons w sched =>
      simp only [deliver, List.mem_cons] at hp
      rcases hp with rfl | hp
      · simp
      · exact List.mem_cons_of_mem w (ih sched p hp)

lemma flatten_map_nil (ws : List Nat) :
    (ws.map (fun _ => ([] : List TaskMsg))).flatten = [] := by
  induction ws with
  | nil => rfl
  | cons w ws ih => simp [ih]

lemma flatten_insert_once (x : TaskMsg) (g : Nat → List TaskMsg) (w0 : Nat) :
    ∀ ws : List Nat, ws.Nodup → w0 ∈ ws →
      ((ws.map (fun w => if w0 = w then x :: g w else g w)).flatten).Perm
        (x :: (ws.map g).flatten) := by
  intro ws
  induction ws with
  | nil => intro _ h; simp at h
  | cons w ws ih =>
    intro hnd hmem
    by_cases hw : w0 = w
    · subst hw
      have hnotin : w0 ∉ ws := (List.nodup_cons.mp hnd).1
      have hcong : ws.map (fun w => if w0 = w then x :: g w else g w) = ws.map g := by
        apply List.map_congr_left
        intro a ha
        rw [if_neg (by
          intro e
          subst e
          exact hnotin ha)]
      simp only [List.map_cons, if_pos rfl, List.flatten_cons, hcong, List.cons_append]
      exact List.Perm.refl _
    · have hmem2 : w0 ∈ ws := by
        rcases List.mem_cons.mp hmem with h | h
        · exact absurd h hw
        · exact h
      simp only [List.map_cons, if_neg hw, List.flatten_cons]
      have hp := (ih (List.nodup_cons.mp hnd).2 hmem2).append_left (g w)
      exact hp.trans List.perm_middle

lemma buckets_perm : ∀ (L : List (Nat × TaskMsg)) (ws : List Nat), ws.Nodup →
    (∀ p ∈ L, p.1 ∈ ws) →
    ((ws.map (fun w => L.filterMap (fun p => if p.1 = w then some p.2 else none))).flatten).Perm
      (L.map Prod.snd) := by
  intro L
  induction L with
  | nil =>
    intro ws _ _
    simp only [List.filterMap_nil, List.map_nil, flatten_map_nil]
    exact List.Perm.refl _
  | cons p L ih =>
    intro ws hnd hmem
    have hbucket : (fun w => (p :: L).filterMap (fun q => if q.1 = w then some q.2 else none))
        = (fun w => if p.1 = w then
            p.2 :: L.filterMap (fun q => if q.1 = w then some q.2 else none)
          else L.filterMap (fun q => if q.1 = w then some q.2 else none)) := by
      funext w
      by_cases h : p.1 = w <;> simp [List.filterMap_cons, h]
    rw [hbucket]
    have hstep := flatten_insert_once p.2
      (fun w => L.filterMap (fun q => if q.1 = w then some q.2 else none)) p.1 ws hnd
      (hmem p (List.mem_cons_self p L))
    have hih := ih ws hnd (fun q hq => hmem q (List.mem_cons_of_mem p hq))
    exact hstep.trans (hih.cons p.2)

/-- Claim C2, amended: Delivery from the shared task queue: under any pull
schedule the delivered messages are exactly a prefix of the queue (each queue
entry is removed by the `get` that takes it, so no WorkItem reaches two
workers — the union over the workers of their consumed lists is a
permutation of the delivered prefix); and `LauncherOrchestrator.run` hands
every worker the *same* queue holding all files, so which worker consumes
which item is fixed only by the runtime schedule, not at partition time. -/
theorem C2_amended_shared_queue (gpus : List Nat) (files : List MFile) :
    (∀ sched : List Nat,
      (deliver (create_task_queue files gpus.length) sched).map Prod.snd
        = (create_task_queue files gpus.length).take sched.length) ∧
    (∀ (sched ws : List Nat), ws.Nodup → (∀ s ∈ sched, s ∈ ws) →
      ((ws.map (fun w =>
          consumedBy w (create_task_queue files gpus.length) sched)).flatten).Perm
        ((deliver (create_task_queue files gpus.length) sched).map Prod.snd)) ∧
    spawnWorkerQueues gpus files = gpus.map (fun _ => create_task_queue files gpus.length) := by
  refine ⟨fun sched => deliver_map_snd _ sched, ?_, rfl⟩
  intro sched ws hnd hcover
  exact buckets_perm (deliver (create_task_queue files gpus.length) sched) ws hnd
    (fun p hp => hcover p.1 (deliver_fst_mem _ sched p hp))

/-- Witness for the amended C2 at a concrete two-file, two-worker setup. -/
theorem C2_amended_shared_queue_witness :
    ((deliver (create_task_queue [f1a, f1b] 2) [0, 1]).map Prod.snd
      = (create_task_queue [f1a, f1b] 2).take 2) ∧
    (([0, 1].map (fun w => consumedBy w (create_task_queue [f1a, f1b] 2) [0, 1])).flatten).Perm
      ((deliver (create_task_queue [f1a, f1b] 2) [0, 1]).map Prod.snd) ∧
    spawnWorkerQueues [0, 1] [f1a, f1b]
      = [0, 1].map (fun _ => create_task_queue [f1a, f1b] 2) := by
  obtain ⟨h1, h2, h3⟩ := C2_amended_shared_queue [0, 1] [f1a, f1b]
  exact ⟨h1 [0, 1], h2 [0, 1] [0, 1] (by decide) (by decide), h3⟩

/-- Claim C2, counterexample: The per-device-split claim fails on the code:
the orchestrator builds one queue shared by both workers, and two pull
schedules that are both consistent with the worker loop hand worker 0
different task sequences — consumption is not a sub-list fixed at partition
time. -/
theorem C2_counterexample :
    schedValid (create_task_queue [f1a, f1b] 2) [0, 0, 0, 1] = true ∧
    schedValid (create_task_queue [f1a, f1b] 2) [1, 1, 1, 0] = true ∧
    consumedBy 0 (create_task_queue [f1a, f1b] 2) [0, 0, 0, 1]
      ≠ consumedBy 0 (create_task_queue [f1a, f1b] 2) [1, 1, 1, 0] ∧
    spawnWorkerQueues [0, 1] [f1a, f1b]
      = [create_task_queue [f1a, f1b] 2, create_task_queue [f1a, f1b] 2] := by
  decide

/-! ### Greedy balance: `balance_by_size` realises the spec's greedy partition -/

lemma minTotal_congr : ∀ (ws₁ ws₂ : List GPUWorkload),
    ws₁.map GPUWorkload.total_size = ws₂.map GPUWorkload.total_size →
    minTotal ws₁ = minTotal ws₂ := by
  intro ws₁
  induction ws₁ with
  | nil =>
    intro ws₂ h
    obtain rfl : ws₂ = [] := by
      cases ws₂ with
      | nil => rfl
      | cons w t => simp at h
    rfl
  | cons w t ih =>
    intro ws₂ h
    cases ws₂ with
    | nil => simp at h
    | cons w2 t2 =>
      simp only [List.map_cons, List.cons.injEq] at h
      obtain ⟨hw, ht⟩ := h
      cases t with
      | nil =>
        obtain rfl : t2 = [] := by
          cases t2 with
          | nil => rfl
          | cons x t2 => simp at ht
        show w.total_size = w2.total_size
        exact hw
      | cons x t =>
        cases t2 with
        | nil => simp at ht
        | cons y t2 =>
          show Nat.min w.total_size (minTotal (x :: t)) =
            Nat.min w2.total_size (minTotal (y :: t2))
          rw [hw, ih (y :: t2) ht]

lemma minIdx_congr : ∀ (ws₁ ws₂ : List GPUWorkload),
    ws₁.map GPUWorkload.total_size = ws₂.map GPUWorkload.total_size →
    minIdx ws₁ = minIdx ws₂ := by
  intro ws₁
  induction ws₁ with
  | nil =>
    intro ws₂ h
    obtain rfl : ws₂ = [] := by
      cases ws₂ with
      | nil => rfl
      | cons w t => simp at h
    rfl
  | cons w t ih =>
    intro ws₂ h
    cases ws₂ with
    | nil => simp at h
    | cons w2 t2 =>
      simp only [List.map_cons, List.cons.injEq] at h
      obtain ⟨hw, ht⟩ := h
      cases t with
      | nil =>
        obtain rfl : t2 = [] := by
          cases t2 with
          | nil => rfl
          | cons x t2 => simp at ht
        rfl
      | cons x t =>
        cases t2 with
        | nil => simp at ht
        | cons y t2 =>
          show (if minTotal (x :: t) < w.total_size then minIdx (x :: t) + 1 else 0) =
            (if minTotal (y :: t2) < w2.total_size then minIdx (y :: t2) + 1 else 0)
          rw [hw, minTotal_congr (x :: t) (y :: t2) ht, ih (y :: t2) ht]

lemma getD_map_files : ∀ (ws : List GPUWorkload) (j : Nat),
    (ws.map GPUWorkload.files).getD j [] = (ws.getD j ⟨0, [], 0⟩).files := by
  intro ws
  induction ws with
  | nil => intro j; cases j <;> rfl
  | cons w ws ih =>
    intro j
    cases j with
    | zero => rfl
    | succ j => simpa using ih j

lemma greedyStep_map (ws : List GPUWorkload) (f : MFile)
    (hinv : ∀ w ∈ ws, w.total_size = sumSizes w.files) :
    (greedyStep ws f).map GPUWorkload.files
      = specGreedyStep (ws.map GPUWorkload.files) f := by
  have hidx : specArgmin (ws.map GPUWorkload.files) = minIdx ws := by
    unfold specArgmin
    apply minIdx_congr
    rw [List.map_map, List.map_map]
    apply List.map_congr_left
    intro w hw
    exact (hinv w hw).symm
  unfold greedyStep specGreedyStep
  rw [hidx, List.map_set, getD_map_files]
  rfl

lemma greedyStep_inv (ws : List GPUWorkload) (f : MFile)
    (hinv : ∀ w ∈ ws, w.total_size = sumSizes w.files) :
    ∀ w ∈ greedyStep ws f, w.total_size = sumSizes w.files := by
  intro w hw
  unfold greedyStep at hw
  rcases List.mem_or_eq_of_mem_set hw with hmem | rfl
  · exact hinv w hmem
  · show (ws.getD (minIdx ws) ⟨0, [], 0⟩).total_size + f.size
      = sumSizes ((ws.getD (minIdx ws) ⟨0, [], 0⟩).files ++ [f])
    have hbase : (ws.getD (minIdx ws) ⟨0, [], 0⟩).total_size
        = sumSizes (ws.getD (minIdx ws) ⟨0, [], 0⟩).files := by
      by_cases hj : minIdx ws < ws.length
      · have : ws.getD (minIdx ws) ⟨0, [], 0⟩ ∈ ws := by
          rw [List.getD_eq_getElem ws _ hj]
          exact List.getElem_mem hj
        exact hinv _ this
      · rw [List.getD_eq_default ws _ (by omega)]
        rfl
    rw [hbase]
    simp [sumSizes]

lemma balance_greedy_aux : ∀ (l : List MFile) (ws : List GPUWorkload),
    (∀ w ∈ ws, w.total_size = sumSizes w.files) →
    (l.foldl greedyStep ws).map GPUWorkload.files
      = l.foldl specGreedyStep (ws.map GPUWorkload.files) := by
  intro l
  induction l with
  | nil => intro ws _; rfl
  | cons f l ih =>
    intro ws hinv
    simp only [List.foldl_cons]
    rw [ih (greedyStep ws f) (greedyStep_inv ws f hinv), greedyStep_map ws f hinv]

lemma balance_by_size_eq_greedyPartition (files : List MFile) (k : Nat) :
    (balance_by_size files k).map GPUWorkload.files
      = greedyPartition (sortBySizeDesc files) k := by
  unfold balance_by_size greedyPartition
  rw [balance_greedy_aux (sortBySizeDesc files) _ (by
    intro w hw
    rcases List.mem_map.mp hw with ⟨i, _, rfl⟩
    rfl)]
  congr 1
  rw [List.map_map]
  apply List.eq_replicate_iff.mpr
  constructor
  · simp
  · intro b hb
    rcases List.mem_map.mp hb with ⟨i, _, rfl⟩
    rfl

/-- Claim C1, counterexample: At the spec's own scenario (5 files sized
[10,1,1,1,1] MB, 2 devices) `distribute_workload` does *not* produce
device0:[10], device1:[1,1,1,1]: it deals the sorted files round-robin,
giving device0 sizes [10,1,1] and device1 sizes [1,1]; only
`balance_by_size` produces the claimed greedy partition. -/
theorem C1_counterexample :
    distribute_workload scenarioFiles 2 = [[f10, f1b, f1d], [f1a, f1c]] ∧
    distribute_workload scenarioFiles 2 ≠ [[f10], [f1a, f1b, f1c, f1d]] ∧
    (balance_by_size scenarioFiles 2).map GPUWorkload.files
      = [[f10], [f1a, f1b, f1c, f1d]] := by
  decide

/-- Claim C1, amended: For every file list and device count >= 1,
`balance_by_size` sorts by byte size descending and then realises the
spec's greedy partition (assign next-largest to the device with the
smallest cumulative byte total, first such device on ties), while
`distribute_workload` sorts the same way but then assigns file `i` of the
sorted order to device `i mod k` (round-robin), i.e. equals the chunked
round-robin deal of the sorted list. -/
theorem C1_partition_algorithms (files : List MFile) (k : Nat) (hk : 1 ≤ k) :
    (balance_by_size files k).map GPUWorkload.files
      = greedyPartition (sortBySizeDesc files) k ∧
    distribute_workload files k = rrSplit (sortBySizeDesc files) k :=
  ⟨balance_by_size_eq_greedyPartition files k,
    distribute_workload_eq_rrSplit files k hk⟩

/-- Witness for the amended C1 at the spec scenario, together with the
concrete partitions both algorithms produce there. -/
theorem C1_partition_algorithms_witness :
    ((balance_by_size scenarioFiles 2).map GPUWorkload.files
        = greedyPartition (sortBySizeDesc scenarioFiles) 2 ∧
      distribute_workload scenarioFiles 2 = rrSplit (sortBySizeDesc scenarioFiles) 2) ∧
    (balance_by_size scenarioFiles 2).map GPUWorkload.files
      = [[f10], [f1a, f1b, f1c, f1d]] ∧
    distribute_workload scenarioFiles 2 = [[f10, f1b, f1d], [f1a, f1c]] :=
  ⟨C1_partition_algorithms scenarioFiles 2 (by decide), by decide, by decide⟩

/-! ### Balance bound, greedy half -/

lemma minTotal_le : ∀ (ws : List GPUWorkload) (w : GPUWorkload), w ∈ ws →
    minTotal ws ≤ w.total_size := by
  intro ws
  induction ws with
  | nil => intro w h; simp at h
  | cons x t ih =>
    intro w hw
    cases t with
    | nil =>
      rcases List.mem_cons.mp hw with rfl | h
      · exact le_rfl
      · simp at h
    | cons y t2 =>
      show Nat.min x.total_size (minTotal (y :: t2)) ≤ w.total_size
      rcases List.mem_cons.mp hw with rfl | h
      · exact Nat.min_le_left _ _
      · exact le_trans (Nat.min_le_right _ _) (ih w h)

lemma getD_minIdx_total : ∀ ws : List GPUWorkload, ws ≠ [] →
    (ws.getD (minIdx ws) ⟨0, [], 0⟩).total_size = minTotal ws := by
  intro ws
  induction ws with
  | nil => intro h; exact absurd rfl h
  | cons x t ih =>
    intro _
    cases t with
    | nil => rfl
    | cons y t2 =>
      show ((x :: y :: t2).getD
        (if minTotal (y :: t2) < x.total_size then minIdx (y :: t2) + 1 else 0)
        ⟨0, [], 0⟩).total_size = Nat.min x.total_size (minTotal (y :: t2))
      by_cases h : minTotal (y :: t2) < x.total_size
      · rw [if_pos h]
        show ((y :: t2).getD (minIdx (y :: t2)) ⟨0, [], 0⟩).total_size = _
        rw [ih (by simp)]
        exact (Nat.min_eq_right (le_of_lt h)).symm
      · rw [if_neg h]
        show x.total_size = _
        exact (Nat.min_eq_left (by omega)).symm

lemma minIdx_lt_length : ∀ ws : List GPUWorkload, ws ≠ [] → minIdx ws < ws.length := by
  intro ws
  induction ws with
  | nil => intro h; exact absurd rfl h
  | cons x t ih =>
    intro _
    cases t with
    | nil => simp [minIdx]
    | cons y t2 =>
      show (if minTotal (y :: t2) < x.total_size then minIdx (y :: t2) + 1 else 0)
        < (x :: y :: t2).length
      by_cases h : minTotal (y :: t2) < x.total_size
      · rw [if_pos h]
        have := ih (by simp)
        simp only [List.length_cons] at *
        omega
      · rw [if_neg h]
        simp

lemma mem_map_total_of_set (ws : List GPUWorkload) (j : Nat) (v : GPUWorkload) (x : Nat)
    (hx : x ∈ (ws.set j v).map GPUWorkload.total_size) :
    x ∈ ws.map GPUWorkload.total_size ∨ x = v.total_size := by
  rcases List.mem_map.mp hx with ⟨w, hw, rfl⟩
  rcases List.mem_or_eq_of_mem_set hw with h | rfl
  · exact Or.inl (List.mem_map_of_mem _ h)
  · exact Or.inr rfl

lemma minTotal_mem_map (ws : List GPUWorkload) (hne : ws ≠ []) :
    minTotal ws ∈ ws.map GPUWorkload.total_size := by
  rw [← getD_minIdx_total ws hne]
  apply List.mem_map_of_mem
  rw [List.getD_eq_getElem ws _ (minIdx_lt_length ws hne)]
  exact List.getElem_mem _

lemma greedy_bound_step (ws : List GPUWorkload) (f : MFile) (c : Nat)
    (hf : f.size ≤ c) (hne : ws ≠ [])
    (hP : ∀ x ∈ ws.map GPUWorkload.total_size, ∀ y ∈ ws.map GPUWorkload.total_size,
      x - y ≤ c) :
    ∀ x ∈ (greedyStep ws f).map GPUWorkload.total_size,
    ∀ y ∈ (greedyStep ws f).map GPUWorkload.total_size, x - y ≤ c := by
  intro x hx y hy
  unfold greedyStep at hx hy
  have hmin : (addFile (ws.getD (minIdx ws) ⟨0, [], 0⟩) f).total_size
      = minTotal ws + f.size := by
    show (ws.getD (minIdx ws) ⟨0, [], 0⟩).total_size + f.size = _
    rw [getD_minIdx_total ws hne]
  have hminmem := minTotal_mem_map ws hne
  rcases mem_map_total_of_set ws _ _ x hx with hxo | hxn
  · rcases mem_map_total_of_set ws _ _ y hy with hyo | hyn
    · exact hP x hxo y hyo
    · rw [hyn, hmin]
      have := hP x hxo (minTotal ws) hminmem
      omega
  · rcases mem_map_total_of_set ws _ _ y hy with hyo | hyn
    · rw [hxn, hmin]
      have := minTotal_le ws
      have hle : minTotal ws ≤ y := by
        rcases List.mem_map.mp hyo with ⟨w, hw, rfl⟩
        exact minTotal_le ws w hw
      omega
    · rw [hxn, hyn]
      omega

lemma greedyStep_ne_nil (ws : List GPUWorkload) (f : MFile) (hne : ws ≠ []) :
    greedyStep ws f ≠ [] := by
  unfold greedyStep
  intro h
  have := congrArg List.length h
  simp at this
  exact hne this

lemma greedy_bound_fold : ∀ (l : List MFile) (ws : List GPUWorkload) (c : Nat),
    (∀ f ∈ l, f.size ≤ c) → ws ≠ [] →
    (∀ x ∈ ws.map GPUWorkload.total_size, ∀ y ∈ ws.map GPUWorkload.total_size, x - y ≤ c) →
    ∀ x ∈ (l.foldl greedyStep ws).map GPUWorkload.total_size,
    ∀ y ∈ (l.foldl greedyStep ws).map GPUWorkload.total_size, x - y ≤ c := by
  intro l
  induction l with
  | nil => intro ws c _ _ hP; exact hP
  | cons f l ih =>
    intro ws c hf hne hP
    simp only [List.foldl_cons]
    exact ih (greedyStep ws f) c (fun g hg => hf g (List.mem_cons_of_mem f hg))
      (greedyStep_ne_nil ws f hne)
      (greedy_bound_step ws f c (hf f (List.mem_cons_self f l)) hne hP)

lemma size_le_largest : ∀ (files : List MFile) (f : MFile), f ∈ files →
    f.size ≤ largestSize files := by
  intro files
  induction files with
  | nil => intro f h; simp at h
  | cons g t ih =>
    intro f hf
    show f.size ≤ Nat.max g.size (largestSize t)
    rcases List.mem_cons.mp hf with rfl | h
    · exact Nat.le_max_left _ _
    · exact le_trans (ih f h) (Nat.le_max_right _ _)

lemma foldl_greedy_inv : ∀ (l : List MFile) (ws : List GPUWorkload),
    (∀ w ∈ ws, w.total_size = sumSizes w.files) →
    ∀ w ∈ l.foldl greedyStep ws, w.total_size = sumSizes w.files := by
  intro l
  induction l with
  | nil => intro ws h; exact h
  | cons f l ih =>
    intro ws h
    exact ih (greedyStep ws f) (greedyStep_inv ws f h)

lemma balance_final_inv (files : List MFile) (k : Nat) :
    ∀ w ∈ balance_by_size files k, w.total_size = sumSizes w.files := by
  unfold balance_by_size
  apply foldl_greedy_inv
  intro w hw
  rcases List.mem_map.mp hw with ⟨i, _, rfl⟩
  rfl

/-! ### Balance bound, round-robin half -/

lemma sumSizes_cons (a : MFile) (w : List MFile) :
    sumSizes (a :: w) = a.size + sumSizes w := by
  simp [sumSizes]

lemma loads_consHeads : ∀ (as : List MFile) (ws : List (List MFile)),
    loadsOf (consHeads as ws) = addTo (as.map MFile.size) (loadsOf ws) := by
  intro as
  induction as with
  | nil => intro ws; rfl
  | cons a as ih =>
    intro ws
    cases ws with
    | nil => rfl
    | cons w ws =>
      show sumSizes (a :: w) :: loadsOf (consHeads as ws)
        = (a.size + sumSizes w) :: addTo (as.map MFile.size) (loadsOf ws)
      rw [sumSizes_cons, ih]

lemma loads_replicate (k : Nat) : loadsOf (List.replicate k []) = List.replicate k 0 := by
  unfold loadsOf
  rw [List.map_replicate]
  rfl

lemma pairwise_head_ge : ∀ ns : List Nat, List.Pairwise (fun a b => b ≤ a) ns →
    ∀ y ∈ ns, y ≤ ns.headD 0 := by
  intro ns h y hy
  cases ns with
  | nil => simp at hy
  | cons n t =>
    rcases List.mem_cons.mp hy with rfl | hmem
    · exact le_rfl
    · exact (List.pairwise_cons.mp h).1 y hmem

lemma addTo_mem_le : ∀ (ss ws : List Nat) (s w : Nat),
    (∀ s2 ∈ ss, s2 ≤ s) → (∀ w2 ∈ ws, w2 ≤ w) →
    ∀ y ∈ addTo ss ws, y ≤ s + w := by
  intro ss
  induction ss with
  | nil =>
    intro ws s w _ hw y hy
    exact le_trans (hw y hy) (by omega)
  | cons s2 ss ih =>
    intro ws s w hs hw y hy
    cases ws with
    | nil => simp [addTo] at hy
    | cons w2 ws =>
      simp only [addTo] at hy
      rcases List.mem_cons.mp hy with rfl | hmem
      · have h1 := hs s2 (by simp)
        have h2 := hw w2 (by simp)
        omega
      · exact ih ws s w (fun x hx => hs x (by simp [hx])) (fun x hx => hw x (by simp [hx]))
          y hmem

lemma mono_addTo : ∀ (ss ws : List Nat),
    List.Pairwise (fun a b => b ≤ a) ss → List.Pairwise (fun a b => b ≤ a) ws →
    List.Pairwise (fun a b => b ≤ a) (addTo ss ws) := by
  intro ss
  induction ss with
  | nil => intro ws _ h; exact h
  | cons s ss ih =>
    intro ws hs hw
    cases ws with
    | nil => exact List.Pairwise.nil
    | cons w ws =>
      show List.Pairwise _ ((s + w) :: addTo ss ws)
      refine List.pairwise_cons.mpr
        ⟨?_, ih ws (List.pairwise_cons.mp hs).2 (List.pairwise_cons.mp hw).2⟩
      intro y hy
      exact addTo_mem_le ss ws s w (List.pairwise_cons.mp hs).1 (List.pairwise_cons.mp hw).1
        y hy

lemma headD_addTo (ss ws : List Nat) (hss : ss ≠ []) (hws : ws ≠ []) :
    (addTo ss ws).headD 0 = ss.headD 0 + ws.headD 0 := by
  cases ss with
  | nil => exact absurd rfl hss
  | cons s ss =>
    cases ws with
    | nil => exact absurd rfl hws
    | cons w ws => rfl

lemma addTo_head_bound : ∀ (ss ws : List Nat) (s0 w0 h2 : Nat),
    ss.length = ws.length →
    (∀ s ∈ ss, h2 ≤ s) → (∀ s ∈ ss, s ≤ s0) → (∀ y ∈ ws, w0 - y ≤ h2) →
    ∀ y ∈ addTo ss ws, (s0 + w0) - y ≤ s0 := by
  intro ss
  induction ss with
  | nil =>
    intro ws s0 w0 h2 hlen _ _ _ y hy
    obtain rfl : ws = [] := by
      cases ws with
      | nil => rfl
      | cons w ws => simp at hlen
    simp [addTo] at hy
  | cons s ss ih =>
    intro ws s0 w0 h2 hlen hh hs0 hw y hy
    cases ws with
    | nil => simp at hlen
    | cons w ws =>
      simp only [addTo] at hy
      rcases List.mem_cons.mp hy with rfl | hmem
      · have h1 := hh s (by simp)
        have h2b := hs0 s (by simp)
        have h3 := hw w (by simp)
        omega
      · exact ih ws s0 w0 h2 (by simp at hlen; omega)
          (fun x hx => hh x (by simp [hx])) (fun x hx => hs0 x (by simp [hx]))
          (fun x hx => hw x (by simp [hx])) y hmem

lemma sorted_map_size (l : List MFile) (h : l.Sorted sizeGE) :
    List.Pairwise (fun a b : Nat => b ≤ a) (l.map MFile.size) :=
  List.Pairwise.map MFile.size (fun _ _ hab => hab) h

lemma pairwise_ge_replicate (k : Nat) :
    List.Pairwise (fun a b : Nat => b ≤ a) (List.replicate k 0) := by
  induction k with
  | zero => exact List.Pairwise.nil
  | succ k ih =>
    rw [List.replicate_succ]
    refine List.pairwise_cons.mpr ⟨?_, ih⟩
    intro y hy
    rw [List.eq_of_mem_replicate hy]

lemma rr_loads_pairwise (k : Nat) (hk : 0 < k) :
    ∀ n (l : List MFile), l.length ≤ n → l.Sorted sizeGE →
    List.Pairwise (fun a b : Nat => b ≤ a) (loadsOf (rrSplit l k)) := by
  intro n
  induction n with
  | zero =>
    intro l h _
    obtain rfl : l = [] := List.eq_nil_of_length_eq_zero (Nat.le_zero.mp h)
    rw [rrSplit_nil, loads_replicate]
    exact pairwise_ge_replicate k
  | succ n ih =>
    intro l h hsort
    rcases eq_or_ne l [] with rfl | hl
    · rw [rrSplit_nil, loads_replicate]
      exact pairwise_ge_replicate k
    · rw [rrSplit_eq_cons l k hl hk, loads_consHeads]
      have hpos : 0 < l.length := List.length_pos.mpr hl
      refine mono_addTo _ _ ?_ ?_
      · exact sorted_map_size _ (List.Pairwise.sublist (List.take_sublist k l) hsort)
      · exact ih (l.drop k) (by simp only [List.length_drop]; omega)
          (List.Pairwise.sublist (List.drop_sublist k l) hsort)

lemma rr_head_bound (k : Nat) (hk : 0 < k) :
    ∀ n (l : List MFile), l.length ≤ n → l.Sorted sizeGE →
    ∀ y ∈ loadsOf (rrSplit l k),
      (loadsOf (rrSplit l k)).headD 0 - y ≤ (l.map MFile.size).headD 0 := by
  intro n
  induction n with
  | zero =>
    intro l h _ y hy
    obtain rfl : l = [] := List.eq_nil_of_length_eq_zero (Nat.le_zero.mp h)
    rw [rrSplit_nil, loads_replicate] at hy ⊢
    rw [List.eq_of_mem_replicate hy]
    cases k <;> simp [List.replicate_succ]
  | succ n ih =>
    intro l h hsort y hy
    rcases eq_or_ne l [] with rfl | hl
    · rw [rrSplit_nil, loads_replicate] at hy ⊢
      rw [List.eq_of_mem_replicate hy]
      cases k <;> simp [List.replicate_succ]
    · have hpos : 0 < l.length := List.length_pos.mpr hl
      rw [rrSplit_eq_cons l k hl hk, loads_consHeads] at hy ⊢
      rcases le_or_lt l.length k with hlk | hlk
      · have hdrop : l.drop k = [] := List.drop_eq_nil_of_le hlk
        have htake : l.take k = l := List.take_of_length_le hlk
        rw [hdrop, rrSplit_nil, loads_replicate, htake] at hy ⊢
        have hne1 : l.map MFile.size ≠ [] := by
          simp only [ne_eq, List.map_eq_nil_iff]
          exact hl
        have hne2 : List.replicate k (0 : Nat) ≠ [] := by
          simp only [ne_eq, List.replicate_eq_nil_iff]
          omega
        rw [headD_addTo _ _ hne1 hne2]
        have hrep : (List.replicate k (0 : Nat)).headD 0 = 0 := by
          cases k with
          | zero => omega
          | succ k2 => rfl
        rw [hrep, Nat.add_zero]
        exact Nat.sub_le _ _
      · have hlen_take : (l.take k).length = k := by
          simp only [List.length_take]
          omega
        have hsort_take : (l.take k).Sorted sizeGE :=
          List.Pairwise.sublist (List.take_sublist k l) hsort
        have hsort_drop : (l.drop k).Sorted sizeGE :=
          List.Pairwise.sublist (List.drop_sublist k l) hsort
        have hcross : ∀ a ∈ l.take k, ∀ b ∈ l.drop k, sizeGE a b := by
          have hp : List.Pairwise sizeGE (l.take k ++ l.drop k) := by
            rw [List.take_append_drop]
            exact hsort
          exact (List.pairwise_append.mp hp).2.2
        have hdropne : l.drop k ≠ [] := by
          intro hd
          have := congrArg List.length hd
          simp only [List.length_drop, List.length_nil] at this
          omega
        have hlen_ws : (loadsOf (rrSplit (l.drop k) k)).length = k := by
          unfold loadsOf
          rw [List.length_map, rrSplit_length k hk (l.drop k).length _ le_rfl]
        have hih : ∀ y2 ∈ loadsOf (rrSplit (l.drop k) k),
            (loadsOf (rrSplit (l.drop k) k)).headD 0 - y2
              ≤ ((l.drop k).map MFile.size).headD 0 :=
          ih (l.drop k) (by simp only [List.length_drop]; omega) hsort_drop
        have hmemh2 : ∀ s ∈ (l.take k).map MFile.size,
            ((l.drop k).map MFile.size).headD 0 ≤ s := by
          intro s hs
          rcases List.mem_map.mp hs with ⟨a, ha, rfl⟩
          cases hd : l.drop k with
          | nil => exact absurd hd hdropne
          | cons b t =>
            have hb : b ∈ l.drop k := by
              rw [hd]
              simp
            have hba := hcross a ha b hb
            simpa using hba
        have hmems0 : ∀ s ∈ (l.take k).map MFile.size,
            s ≤ ((l.take k).map MFile.size).headD 0 :=
          pairwise_head_ge _ (sorted_map_size _ hsort_take)
        have hlens : ((l.take k).map MFile.size).length
            = (loadsOf (rrSplit (l.drop k) k)).length := by
          rw [List.length_map, hlen_take, hlen_ws]
        have hbound := addTo_head_bound ((l.take k).map MFile.size)
          (loadsOf (rrSplit (l.drop k) k))
          (((l.take k).map MFile.size).headD 0)
          ((loadsOf (rrSplit (l.drop k) k)).headD 0)
          (((l.drop k).map MFile.size).headD 0)
          hlens hmemh2 hmems0 hih y hy
        have hssne : (l.take k).map MFile.size ≠ [] := by
          simp only [ne_eq, List.map_eq_nil_iff]
          intro hnil
          have := congrArg List.length hnil
          rw [hlen_take] at this
          simp at this
          omega
        have hwsne : loadsOf (rrSplit (l.drop k) k) ≠ [] := by
          intro hnil
          rw [hnil] at hlen_ws
          simp at hlen_ws
          omega
        rw [headD_addTo _ _ hssne hwsne]
        have hhead : ((l.take k).map MFile.size).headD 0 = (l.map MFile.size).headD 0 := by
          cases l with
          | nil => exact absurd rfl hl
          | cons a t =>
            cases k with
            | zero => omega
            | succ k2 => rfl
        rw [← hhead]
        exact hbound

lemma largest_of_sorted_head (files : List MFile) :
    ((sortBySizeDesc files).map MFile.size).headD 0 ≤ largestSize files := by
  cases hs : sortBySizeDesc files with
  | nil => simp
  | cons a t =>
    have ha : a ∈ files := (sortBySizeDesc_perm files).subset (by rw [hs]; simp)
    simpa using size_le_largest files a ha

lemma rr_bound (files : List MFile) (k : Nat) (hk : 0 < k) :
    ∀ x ∈ loadsOf (distribute_workload files k),
    ∀ y ∈ loadsOf (distribute_workload files k), x - y ≤ largestSize files := by
  rw [distribute_workload_eq_rrSplit files k hk]
  intro x hx y hy
  have hpw := rr_loads_pairwise k hk (sortBySizeDesc files).length (sortBySizeDesc files)
    le_rfl (sortBySizeDesc_sorted files)
  have hx_le := pairwise_head_ge _ hpw x hx
  have hhb := rr_head_bound k hk (sortBySizeDesc files).length (sortBySizeDesc files)
    le_rfl (sortBySizeDesc_sorted files) y hy
  have hlast := largest_of_sorted_head files
  omega

lemma greedy_loads_eq (files : List MFile) (k : Nat) :
    loadsOf ((balance_by_size files k).map GPUWorkload.files)
      = (balance_by_size files k).map GPUWorkload.total_size := by
  unfold loadsOf
  rw [List.map_map]
  apply List.map_congr_left
  intro w hw
  exact (balance_final_inv files k w hw).symm

lemma greedy_bound_final (files : List MFile) (k : Nat) (hk : 0 < k) :
    ∀ x ∈ loadsOf ((balance_by_size files k).map GPUWorkload.files),
    ∀ y ∈ loadsOf ((balance_by_size files k).map GPUWorkload.files),
      x - y ≤ largestSize files := by
  rw [greedy_loads_eq]
  unfold balance_by_size
  apply greedy_bound_fold
  · intro f hf
    exact size_le_largest files f ((sortBySizeDesc_perm files).subset hf)
  · intro hnil
    have := congrArg List.length hnil
    simp at this
    omega
  · intro x hx y hy
    rcases List.mem_map.mp hx with ⟨w, hw, rfl⟩
    rcases List.mem_map.mp hw with ⟨i, _, rfl⟩
    simp

/-- Claim C7: For every input file list and device count >= 1, both allocators
satisfy the greedy-LPT balance bound: any two per-device cumulative byte
totals differ by at most the size of the largest single input file
(`x - y ≤ largest` for all loads `x`, `y` — in particular max minus min). -/
theorem C7_greedy_balance_bound (files : List MFile) (k : Nat) (hk : 1 ≤ k) :
    (∀ x ∈ loadsOf (distribute_workload files k),
     ∀ y ∈ loadsOf (distribute_workload files k), x - y ≤ largestSize files) ∧
    (∀ x ∈ loadsOf ((balance_by_size files k).map GPUWorkload.files),
     ∀ y ∈ loadsOf ((balance_by_size files k).map GPUWorkload.files),
      x - y ≤ largestSize files) :=
  ⟨rr_bound files k hk, greedy_bound_final files k hk⟩

/-- Witness for C7 at the spec scenario, with the concrete loads. -/
theorem C7_greedy_balance_bound_witness :
    ((∀ x ∈ loadsOf (distribute_workload scenarioFiles 2),
      ∀ y ∈ loadsOf (distribute_workload scenarioFiles 2),
        x - y ≤ largestSize scenarioFiles) ∧
     (∀ x ∈ loadsOf ((balance_by_size scenarioFiles 2).map GPUWorkload.files),
      ∀ y ∈ loadsOf ((balance_by_size scenarioFiles 2).map GPUWorkload.files),
        x - y ≤ largestSize scenarioFiles)) ∧
    loadsOf (distribute_workload scenarioFiles 2) = [12582912, 2097152] ∧
    loadsOf ((balance_by_size scenarioFiles 2).map GPUWorkload.files)
      = [10485760, 4194304] ∧
    largestSize scenarioFiles = 10485760 :=
  ⟨C7_greedy_balance_bound scenarioFiles 2 (by decide), by decide, by decide, by decide⟩

end TalkSmith
